import Mathlib

/-!
Shallow embedding of the core ledger of the `build-bitcoin-in-rust`
repository (crate `btclib` plus the node's template handler), together
with theorems settling the frozen claims about it.

Modelling conventions:
* `Hash` values (256-bit SHA-256 digests) are modelled as `Nat`.  The
  concrete hash functions (SHA-256 over a CBOR encoding) and ECDSA
  signature verification are cryptographic black boxes; they are
  abstracted into a `HashModel` record of function parameters, so every
  theorem holds for an arbitrary choice of these functions and witnesses
  instantiate them with concrete ones.
* `U256` and `u64` quantities are modelled as `Nat`; machine subtraction
  appears only where the source guarantees no underflow (noted at each
  site), and `u64` right shift / `2^k` division are exact on the values
  involved.  Where an overflow or `expect` in the source would abort the
  process, the model returns an explicit `panic` outcome.
* `chrono` timestamps are modelled as `Int` seconds; `DateTime`
  subtraction followed by `num_seconds()` becomes `Int` subtraction.
* The `HashMap<Hash, (bool, TransactionOutput)>` UTXO index is modelled
  extensionally as a function `Nat → Option (Bool × TransactionOutput)`;
  `entry(..).and_modify`, `insert` and `remove` become pointwise updates.
-/

/-- Errors of `btclib::error::BtcError` reachable from the embedded code. -/
inductive BtcError where
  | invalidTransaction
  | invalidBlock
  | invalidMerkleRoot
  | invalidSignature
  deriving DecidableEq, Repr

/-- Result of a pure fallible computation: Rust `Result` plus an explicit
outcome for process aborts (arithmetic overflow, `expect`, out-of-bounds
indexing). -/
inductive RRes (α : Type) where
  | ok (value : α)
  | err (e : BtcError)
  | panic
  deriving DecidableEq, Repr

/-- Embeds `types::TransactionOutput`: value in satoshis, a 128-bit UUID and the
receiving public key (UUID and key modelled as `Nat`). -/
structure TransactionOutput where
  value : Nat
  unique_id : Nat
  pubkey : Nat
  deriving DecidableEq, Repr

/-- Embeds `types::TransactionInput`: hash of the referenced output and an ECDSA
signature over it (signature modelled as `Nat`). -/
structure TransactionInput where
  prev_transaction_output_hash : Nat
  signature : Nat
  deriving DecidableEq, Repr

/-- Embeds `types::Transaction`. -/
structure Transaction where
  inputs : List TransactionInput
  outputs : List TransactionOutput
  deriving DecidableEq, Repr

/-- Embeds `types::BlockHeader`; the timestamp is in whole seconds. -/
structure BlockHeader where
  timestamp : Int
  nonce : Nat
  prev_block_hash : Nat
  merkle_root : Nat
  target : Nat
  deriving DecidableEq, Repr

/-- Embeds `types::Block`. -/
structure Block where
  header : BlockHeader
  transactions : List Transaction
  deriving DecidableEq, Repr

/-- The UTXO index: output hash to (mempool-reservation mark, output). -/
def UtxoMap : Type := Nat → Option (Bool × TransactionOutput)

/-- Embeds `types::Blockchain` (field for field). -/
structure Blockchain where
  utxos : UtxoMap
  target : Nat
  blocks : List Block
  mempool : List (Int × Transaction)

/-- The cryptographic primitives the source uses, abstracted: SHA-256 of the
CBOR encoding of an output / transaction / header / block, the hash of a
two-element hash list (Merkle inner node), and ECDSA signature verification
(signature, message hash, public key). -/
structure HashModel where
  hashOutput : TransactionOutput → Nat
  hashTx : Transaction → Nat
  hashHeader : BlockHeader → Nat
  hashBlock : Block → Nat
  hashPair : Nat → Nat → Nat
  sigVerify : Nat → Nat → Nat → Bool

/-- Embeds `INITIAL_REWARD`: initial reward in whole bitcoin. -/
def INITIAL_REWARD : Nat := 50

/-- Embeds `HALVING_INTERVAL`: halving interval in blocks. -/
def HALVING_INTERVAL : Nat := 210

/-- Embeds `IDEAL_BLOCK_TIME`: ideal block time in seconds. -/
def IDEAL_BLOCK_TIME : Nat := 10

/-- Embeds `MIN_TARGET = U256([0xFFFF_FFFF_FFFF_FFFF, 0xFFFF_FFFF_FFFF_FFFF,
0xFFFF_FFFF_FFFF_FFFF, 0x0000_FFFF_FFFF_FFFF])` with little-endian 64-bit
words, i.e. `2^240 - 1`. -/
def MIN_TARGET : Nat := 2 ^ 240 - 1

/-- Embeds `DIFFICULTY_UPDATE_INTERVAL`: difficulty update interval in blocks. -/
def DIFFICULTY_UPDATE_INTERVAL : Nat := 50

/-- Embeds `MAX_MEMPOOL_TRANSACTION_AGE`: maximum mempool transaction age in
seconds. -/
def MAX_MEMPOOL_TRANSACTION_AGE : Nat := 600

/-- Embeds `BLOCK_TRANSACTION_CAP`: maximum amount of transactions allowed in a
block. -/
def BLOCK_TRANSACTION_CAP : Nat := 20

/-- Embeds `Hash::zero()`. -/
def hashZero : Nat := 0

/-- Embeds `Hash::matches_target`: the hash, read as a 256-bit number, is at most
the target. -/
def matchesTarget (h target : Nat) : Bool := h ≤ target

/-- Embeds `HashMap::insert k v` as a pointwise update. -/
def mapInsert (k : Nat) (v : Bool × TransactionOutput) (u : UtxoMap) : UtxoMap :=
  fun q => if q = k then some v else u q

/-- Embeds `HashMap::remove k` as a pointwise update. -/
def mapRemove (k : Nat) (u : UtxoMap) : UtxoMap :=
  fun q => if q = k then none else u q

/-- Embeds `HashMap::entry(k).and_modify(f)`: applies `f` to the entry at `k` when
present, does nothing otherwise. -/
def entryModify (k : Nat) (f : Bool × TransactionOutput → Bool × TransactionOutput)
    (u : UtxoMap) : UtxoMap :=
  fun q => if q = k then (u q).map f else u q

/-- Clearing the reservation mark of one UTXO:
`entry(k).and_modify(|(marked, _)| *marked = false)`. -/
def unmarkEntry (k : Nat) (u : UtxoMap) : UtxoMap :=
  entryModify k (fun p => (false, p.2)) u

/-- Clearing the reservation marks of a list of UTXO hashes in order. -/
def unmarkAllHashes (ks : List Nat) (u : UtxoMap) : UtxoMap :=
  ks.foldl (fun acc k => unmarkEntry k acc) u

/-- Setting the reservation mark of one UTXO:
`entry(k).and_modify(|(marked, _)| *marked = true)`. -/
def markEntry (k : Nat) (u : UtxoMap) : UtxoMap :=
  entryModify k (fun p => (true, p.2)) u

/-- Setting the reservation marks of the UTXOs referenced by a list of
inputs, in order (`add_to_mempool`'s final marking loop). -/
def markAllInputs (is : List TransactionInput) (u : UtxoMap) : UtxoMap :=
  is.foldl (fun acc i => markEntry i.prev_transaction_output_hash acc) u

/-- One pass of `MerkleRoot::calculate`'s `while` body: `layer.chunks(2)`,
hashing each pair and duplicating a trailing odd element
(`pair.get(1).unwrap_or(&pair[0])`). -/
def pairStep (hm : HashModel) : List Nat → List Nat
  | [] => []
  | [x] => [hm.hashPair x x]
  | x :: y :: rest => hm.hashPair x y :: pairStep hm rest

/-- The `while layer.len() > 1` loop of `MerkleRoot::calculate`, driven by a
fuel argument.  Each pass at least halves a layer of length ≥ 2, so fuel
equal to the initial layer length always suffices and the fuel case is never
the one that stops the loop. -/
def merkleLoop (hm : HashModel) : Nat → List Nat → List Nat
  | 0, layer => layer
  | fuel + 1, layer =>
    if 1 < layer.length then merkleLoop hm fuel (pairStep hm layer) else layer

/-- Embeds `MerkleRoot::calculate`: hash every transaction into layer 0, reduce,
then read `layer[0]` — an out-of-bounds panic (`none`) when the transaction
list is empty, since the loop keeps an empty layer empty. -/
def merkleCalculate (hm : HashModel) (txs : List Transaction) : Option Nat :=
  let layer := txs.map hm.hashTx
  (merkleLoop hm layer.length layer).head?

/-- Embeds `Blockchain::new()`. -/
def Blockchain.new : Blockchain :=
  { utxos := fun _ => none, target := MIN_TARGET, blocks := [], mempool := [] }

/-- Embeds `Blockchain::block_height()`. -/
def Blockchain.blockHeight (st : Blockchain) : Nat := st.blocks.length

/-- Embeds `Blockchain::calculate_block_reward`: number of halvings is
`block_height / HALVING_INTERVAL`; after 64 halvings the reward is 0,
otherwise `(INITIAL_REWARD * 10^8) >> halvings`. -/
def calculateBlockReward (st : Blockchain) : Nat :=
  let halvings := st.blockHeight / HALVING_INTERVAL
  if 64 ≤ halvings then 0 else (INITIAL_REWARD * 10 ^ 8) >>> halvings

/-- The input-collecting half of `Block::calculate_miner_fees`' per-transaction
loop: look every input up in the UTXO set (`InvalidTransaction` when absent),
reject an input hash already collected, and record `(hash, looked-up output)`
in insertion order (the `inputs` HashMap, modelled as an association list). -/
def collectInputs (u : UtxoMap) :
    List TransactionInput → List (Nat × TransactionOutput) →
    RRes (List (Nat × TransactionOutput))
  | [], acc => .ok acc
  | i :: rest, acc =>
    match u i.prev_transaction_output_hash with
    | none => .err .invalidTransaction
    | some (_, prevOutput) =>
      if acc.any (fun p => p.1 = i.prev_transaction_output_hash) then
        .err .invalidTransaction
      else
        collectInputs u rest (acc ++ [(i.prev_transaction_output_hash, prevOutput)])

/-- The output-collecting half of the same loop: reject a duplicate output
hash, and record `(hash(output), output)` (the `outputs` HashMap). -/
def collectOutputs (hm : HashModel) :
    List TransactionOutput → List (Nat × TransactionOutput) →
    RRes (List (Nat × TransactionOutput))
  | [], acc => .ok acc
  | o :: rest, acc =>
    if acc.any (fun p => p.1 = hm.hashOutput o) then .err .invalidTransaction
    else collectOutputs hm rest (acc ++ [(hm.hashOutput o, o)])

/-- The full loop of `Block::calculate_miner_fees` over the transactions after
the coinbase, threading both maps. -/
def collectFees (hm : HashModel) (u : UtxoMap) :
    List Transaction → List (Nat × TransactionOutput) → List (Nat × TransactionOutput) →
    RRes (List (Nat × TransactionOutput) × List (Nat × TransactionOutput))
  | [], ins, outs => .ok (ins, outs)
  | tx :: rest, ins, outs =>
    match collectInputs u tx.inputs ins with
    | .err e => .err e
    | .panic => .panic
    | .ok ins' =>
      match collectOutputs hm tx.outputs outs with
      | .err e => .err e
      | .panic => .panic
      | .ok outs' => collectFees hm u rest ins' outs'

/-- Embeds `Block::calculate_miner_fees`: collect the input and output maps over
`transactions[1..]`, then return `input_value - output_value`.  The source
subtraction is on `u64` (underflow would abort a checked build and wrap in a
release build); it is modelled as truncated subtraction, which agrees with
the source whenever the input sum is at least the output sum. -/
def calculateMinerFees (hm : HashModel) (u : UtxoMap) (b : Block) : RRes Nat :=
  match collectFees hm u (b.transactions.drop 1) [] [] with
  | .err e => .err e
  | .panic => .panic
  | .ok (ins, outs) =>
    .ok ((ins.map (fun p => p.2.value)).sum - (outs.map (fun p => p.2.value)).sum)

/-- Embeds `Block::verify_coinbase_transaction`.  The reward at the verification
site is computed inline as `INITIAL_REWARD * 10^8 / 2u64.pow(halvings)`;
when `halvings ≥ 64` the power overflows `u64`, which aborts a checked build
and wraps to `0` in a release build, where the division then aborts with a
division by zero — modelled as `panic` in both cases. -/
def verifyCoinbaseTransaction (hm : HashModel) (b : Block)
    (predictedBlockHeight : Nat) (u : UtxoMap) : RRes Unit :=
  match b.transactions.head? with
  | none => .panic
  | some coinbaseTx =>
    if coinbaseTx.inputs.length ≠ 0 then .err .invalidTransaction
    else if coinbaseTx.outputs.length = 0 then .err .invalidTransaction
    else
      match calculateMinerFees hm u b with
      | .err e => .err e
      | .panic => .panic
      | .ok minerFees =>
        let halvings := predictedBlockHeight / HALVING_INTERVAL
        if 64 ≤ halvings then .panic
        else
          let blockReward := INITIAL_REWARD * 10 ^ 8 / 2 ^ halvings
          let totalCoinbaseOutputs := (coinbaseTx.outputs.map (fun o => o.value)).sum
          if totalCoinbaseOutputs ≠ blockReward + minerFees then .err .invalidTransaction
          else .ok ()

/-- The per-input body of `Block::verify_transactions`' inner loop: UTXO
lookup, same-block double-spend check against the shared `inputs` map,
signature check, then accumulate the input value and record the input. -/
def verifyTxInputs (hm : HashModel) (u : UtxoMap) :
    List TransactionInput → List (Nat × TransactionOutput) → Nat →
    RRes (List (Nat × TransactionOutput) × Nat)
  | [], ins, inputValue => .ok (ins, inputValue)
  | i :: rest, ins, inputValue =>
    match u i.prev_transaction_output_hash with
    | none => .err .invalidTransaction
    | some (_, prevOutput) =>
      if ins.any (fun p => p.1 = i.prev_transaction_output_hash) then
        .err .invalidTransaction
      else if ¬ hm.sigVerify i.signature i.prev_transaction_output_hash prevOutput.pubkey then
        .err .invalidSignature
      else
        verifyTxInputs hm u rest
          (ins ++ [(i.prev_transaction_output_hash, prevOutput)])
          (inputValue + prevOutput.value)

/-- The outer loop of `Block::verify_transactions` over the non-coinbase
transactions: check the inputs, then require the input value to cover the
output value. -/
def verifyNonCoinbase (hm : HashModel) (u : UtxoMap) :
    List Transaction → List (Nat × TransactionOutput) → RRes Unit
  | [], _ => .ok ()
  | tx :: rest, ins =>
    match verifyTxInputs hm u tx.inputs ins 0 with
    | .err e => .err e
    | .panic => .panic
    | .ok (ins', inputValue) =>
      let outputValue := (tx.outputs.map (fun o => o.value)).sum
      if inputValue < outputValue then .err .invalidTransaction
      else verifyNonCoinbase hm u rest ins'

/-- Embeds `Block::verify_transactions`: reject completely empty blocks, verify the
coinbase transaction, then every transaction after it. -/
def verifyTransactions (hm : HashModel) (b : Block) (predictedBlockHeight : Nat)
    (u : UtxoMap) : RRes Unit :=
  if b.transactions.isEmpty then .err .invalidTransaction
  else
    match verifyCoinbaseTransaction hm b predictedBlockHeight u with
    | .err e => .err e
    | .panic => .panic
    | .ok _ => verifyNonCoinbase hm u (b.transactions.drop 1) []

/-- Result of a `&mut self` operation on the blockchain: `ok` carries the new
state, `err` carries the error together with the state as it is at the
`return Err` site, `panic` models a process abort. -/
inductive StepResult where
  | ok (st : Blockchain)
  | err (e : BtcError) (st : Blockchain)
  | panic

/-- Embeds `Blockchain::try_adjust_target`.  The `BigDecimal` product
`target * (elapsed / ideal)` truncated at the decimal point is the exact
floor `target * elapsed / ideal`; a negative product renders with a leading
minus sign, which `U256::from_str_radix` rejects, so the
`expect("BUG: impossible")` aborts — that (unreachable through `add_block`)
case is the `none` outcome. -/
def tryAdjustTarget (st : Blockchain) : Option Blockchain :=
  if st.blocks.length < DIFFICULTY_UPDATE_INTERVAL then some st
  else if st.blocks.length % DIFFICULTY_UPDATE_INTERVAL ≠ 0 then some st
  else
    match st.blocks.get? (st.blocks.length - DIFFICULTY_UPDATE_INTERVAL),
        st.blocks.getLast? with
    | some firstBlock, some lastBlock =>
      let timeDiffSeconds : Int :=
        lastBlock.header.timestamp - firstBlock.header.timestamp
      let targetSeconds : Nat := IDEAL_BLOCK_TIME * DIFFICULTY_UPDATE_INTERVAL
      if timeDiffSeconds < 0 ∧ st.target ≠ 0 then none
      else
        let newTargetRaw : Nat := st.target * timeDiffSeconds.toNat / targetSeconds
        let newTarget : Nat :=
          if newTargetRaw < st.target / 4 then st.target / 4
          else if st.target * 4 < newTargetRaw then st.target * 4
          else newTargetRaw
        some { st with target := min newTarget MIN_TARGET }
    | _, _ => none

/-- The unconditional tail of `Blockchain::add_block` (both the genesis and
the non-genesis path fall through to it): evict from the mempool every
transaction whose hash occurs in the block, push the block, and call
`try_adjust_target`. -/
def acceptBlock (hm : HashModel) (st : Blockchain) (block : Block) : StepResult :=
  let blockTxHashes := block.transactions.map hm.hashTx
  let mempool' :=
    st.mempool.filter (fun e => ¬ blockTxHashes.contains (hm.hashTx e.2))
  match tryAdjustTarget
      { st with mempool := mempool', blocks := st.blocks ++ [block] } with
  | some st' => .ok st'
  | none => .panic

/-- Embeds `Blockchain::add_block`: on the genesis path only the zero previous hash
is checked; otherwise the previous-hash, proof-of-work, Merkle-root and
timestamp checks run in order (the Merkle computation precedes its
comparison and the remaining checks), then `verify_transactions`. -/
def addBlock (hm : HashModel) (st : Blockchain) (block : Block) : StepResult :=
  match st.blocks.getLast? with
  | none =>
    if block.header.prev_block_hash ≠ hashZero then .err .invalidBlock st
    else acceptBlock hm st block
  | some lastBlock =>
    if block.header.prev_block_hash ≠ hm.hashBlock lastBlock then .err .invalidBlock st
    else if ¬ matchesTarget (hm.hashHeader block.header) block.header.target then
      .err .invalidBlock st
    else
      match merkleCalculate hm block.transactions with
      | none => .panic
      | some calculatedRoot =>
        if calculatedRoot ≠ block.header.merkle_root then .err .invalidMerkleRoot st
        else if block.header.timestamp ≤ lastBlock.header.timestamp then
          .err .invalidBlock st
        else
          match verifyTransactions hm block st.blockHeight st.utxos with
          | .err e => .err e st
          | .panic => .panic
          | .ok _ => acceptBlock hm st block

/-- Embeds `Blockchain::rebuild_utxos`: replay every block's transactions in order,
removing the UTXOs consumed by the inputs and inserting every output with the
mark cleared. -/
def rebuildUtxos (hm : HashModel) (st : Blockchain) : Blockchain :=
  { st with
    utxos :=
      st.blocks.foldl
        (fun u block =>
          block.transactions.foldl
            (fun u tx =>
              tx.outputs.foldl
                (fun u o => mapInsert (hm.hashOutput o) (false, o) u)
                (tx.inputs.foldl
                  (fun u i => mapRemove i.prev_transaction_output_hash u) u))
            u)
        st.utxos }

/-- The first validation loop of `Blockchain::add_to_mempool`: every input
must reference a known UTXO and must not repeat (the `known_inputs` set). -/
def checkInputsKnown (u : UtxoMap) :
    List TransactionInput → List Nat → Option BtcError
  | [], _ => none
  | i :: rest, known =>
    if (u i.prev_transaction_output_hash).isNone then some .invalidTransaction
    else if known.contains i.prev_transaction_output_hash then some .invalidTransaction
    else checkInputsKnown u rest (i.prev_transaction_output_hash :: known)

/-- The conflict-resolution loop of `Blockchain::add_to_mempool`: for each
input whose referenced UTXO is marked, search the mempool (in order, with its
index) for a transaction one of whose outputs hashes to that UTXO; if found,
unmark the UTXOs referenced by that transaction's inputs and remove it from
the mempool, otherwise just unmark the contested UTXO. -/
def resolveConflicts (hm : HashModel) :
    List TransactionInput → UtxoMap → List (Int × Transaction) →
    UtxoMap × List (Int × Transaction)
  | [], u, pool => (u, pool)
  | i :: rest, u, pool =>
    match u i.prev_transaction_output_hash with
    | some (true, _) =>
      match pool.enum.find?
          (fun e =>
            e.2.2.outputs.any
              (fun o => hm.hashOutput o = i.prev_transaction_output_hash)) with
      | some (idx, (_, referencingTx)) =>
        resolveConflicts hm rest
          (unmarkAllHashes
            (referencingTx.inputs.map (fun j => j.prev_transaction_output_hash)) u)
          (pool.eraseIdx idx)
      | none =>
        resolveConflicts hm rest (unmarkEntry i.prev_transaction_output_hash u) pool
    | _ => resolveConflicts hm rest u pool

/-- The input-value sum of `add_to_mempool`'s balance check; a missing UTXO
hits the source's `expect("BUG: impossible")`, modelled as `none`. -/
def inputsValueSum (u : UtxoMap) : List TransactionInput → Option Nat
  | [] => some 0
  | i :: rest =>
    match u i.prev_transaction_output_hash with
    | none => none
    | some (_, o) => (inputsValueSum u rest).map (fun s => o.value + s)

/-- The miner-fee key of the final `sort_by_key` closure: the sum of the
values of the referenced UTXOs minus the sum of the output values.  For
every entry actually admitted to the mempool all lookups succeed and the
`u64` subtraction cannot underflow, so the total model (default `0`,
truncated subtraction) agrees with the source there. -/
def minerFeeKey (u : UtxoMap) (tx : Transaction) : Nat :=
  (tx.inputs.map
      (fun i => ((u i.prev_transaction_output_hash).map (fun p => p.2.value)).getD 0)).sum
    - (tx.outputs.map (fun o => o.value)).sum

/-- Embeds `Blockchain::add_to_mempool`: validate the inputs, resolve reservation
conflicts, reject when the input sum is below the output sum (note this
check runs after the conflict resolution has already mutated the state),
then mark the inputs, push `(now, transaction)` and re-sort the mempool by
ascending miner fee.  `Vec::sort_by_key` is a stable ascending sort, whose
(unique) result is computed here by insertion sort. -/
def addToMempool (hm : HashModel) (now : Int) (st : Blockchain)
    (transaction : Transaction) : StepResult :=
  match checkInputsKnown st.utxos transaction.inputs [] with
  | some e => .err e st
  | none =>
    let resolved := resolveConflicts hm transaction.inputs st.utxos st.mempool
    match inputsValueSum resolved.1 transaction.inputs with
    | none => .panic
    | some allInputs =>
      let allOutputs := (transaction.outputs.map (fun o => o.value)).sum
      if allInputs < allOutputs then
        .err .invalidTransaction { st with utxos := resolved.1, mempool := resolved.2 }
      else
        let u2 := markAllInputs transaction.inputs resolved.1
        let pool2 := resolved.2 ++ [(now, transaction)]
        .ok { st with
              utxos := u2,
              mempool :=
                pool2.insertionSort
                  (fun a b => minerFeeKey u2 a.2 ≤ minerFeeKey u2 b.2) }

/-- The eviction predicate of `Blockchain::cleanup_mempool`:
`now - timestamp > MAX_MEMPOOL_TRANSACTION_AGE` seconds. -/
def isExpired (now : Int) (e : Int × Transaction) : Bool :=
  decide ((MAX_MEMPOOL_TRANSACTION_AGE : Int) < now - e.1)

/-- Embeds `Blockchain::cleanup_mempool`: retain only the non-expired entries,
collecting the input UTXO hashes of every evicted entry in order, then
unmark them all. -/
def cleanupMempool (now : Int) (st : Blockchain) : Blockchain :=
  let evicted := st.mempool.filter (isExpired now)
  let hashesToUnmark :=
    evicted.flatMap (fun e => e.2.inputs.map (fun i => i.prev_transaction_output_hash))
  { st with
    mempool := st.mempool.filter (fun e => ! isExpired now e),
    utxos := unmarkAllHashes hashesToUnmark st.utxos }

/-- The CBOR round trip of `impl Saveable for Blockchain` (ciborium
`into_writer` then `from_reader`): every field is serialized and restored
as-is except `mempool`, which carries `#[serde(default, skip_serializing)]`
and therefore deserializes to its default, the empty vector. -/
def saveLoad (st : Blockchain) : Blockchain :=
  { utxos := st.utxos, target := st.target, blocks := st.blocks, mempool := [] }

/-- Embeds `block.transactions[0].outputs[0].value = v` from the `FetchTemplate`
handler; both indices exist for every template it builds (the coinbase is
always prepended with one output), so the empty fallbacks are unreachable. -/
def updateCoinbaseValue (b : Block) (v : Nat) : Block :=
  match b.transactions with
  | [] => b
  | tx :: rest =>
    { b with
      transactions :=
        { tx with
          outputs :=
            match tx.outputs with
            | [] => tx.outputs
            | o :: os => { o with value := v } :: os } :: rest }

/-- The `FetchTemplate` arm of the node's `handle_connection`: take up to
`BLOCK_TRANSACTION_CAP` mempool transactions, prepend a fresh zero-valued
coinbase for the requesting key, build the header on the current tip and
target, then set the coinbase value to `reward + miner_fees` and recompute
the Merkle root.  A miner-fee error makes the handler return without
sending a template. -/
def fetchTemplate (hm : HashModel) (now : Int) (freshId : Nat) (pubkey : Nat)
    (st : Blockchain) : RRes Block :=
  let mempoolTxs := (st.mempool.take BLOCK_TRANSACTION_CAP).map (fun e => e.2)
  let coinbase : Transaction :=
    { inputs := [], outputs := [{ pubkey := pubkey, unique_id := freshId, value := 0 }] }
  let transactions := coinbase :: mempoolTxs
  match merkleCalculate hm transactions with
  | none => .panic
  | some merkleRoot =>
    let block : Block :=
      { header :=
          { timestamp := now
            prev_block_hash := ((st.blocks.getLast?).map hm.hashBlock).getD hashZero
            nonce := 0
            target := st.target
            merkle_root := merkleRoot }
        transactions := transactions }
    match calculateMinerFees hm st.utxos block with
    | .err e => .err e
    | .panic => .panic
    | .ok minerFees =>
      let reward := calculateBlockReward st
      let block' := updateCoinbaseValue block (reward + minerFees)
      match merkleCalculate hm block'.transactions with
      | none => .panic
      | some merkleRoot' =>
        .ok { block' with header := { block'.header with merkle_root := merkleRoot' } }

/-- Concrete instantiation of the abstract cryptographic primitives, used by
witnesses and counterexamples: outputs hash to their (unique) UUID, all
other hashes are zero and every signature verifies. -/
def hm0 : HashModel :=
  { hashOutput := fun o => o.unique_id
    hashTx := fun _ => 0
    hashHeader := fun _ => 0
    hashBlock := fun _ => 0
    hashPair := fun _ _ => 0
    sigVerify := fun _ _ _ => true }

/-- Empty UTXO index. -/
def emptyUtxos : UtxoMap := fun _ => none

/-- Fixture for C4: a shape-valid coinbase-only block (zero inputs, one
output), whose miner-fee calculation trivially succeeds. -/
def blockC4 : Block :=
  { header :=
      { timestamp := 0, nonce := 0, prev_block_hash := 0, merkle_root := 0, target := 0 }
    transactions :=
      [{ inputs := [], outputs := [{ value := 1, unique_id := 0, pubkey := 0 }] }] }

/-- Fixture for C4: a chain of 13440 = 64 · HALVING_INTERVAL blocks, the
height at which the 64th halving is reached. -/
def chainC4 : Blockchain :=
  { utxos := emptyUtxos, target := 0, blocks := List.replicate 13440 blockC4,
    mempool := [] }

/-- C4: The claim says the reward used when verifying a coinbase equals
`(INITIAL_REWARD * 10^8) >> (h / HALVING_INTERVAL)` and that verification
still returns a result (reward 0) once `h / HALVING_INTERVAL ≥ 64`.  At
height 13440 (64 halvings) `verify_coinbase_transaction` instead evaluates
`2u64.pow(64)`, which overflows `u64` and aborts the process, even though
`calculate_block_reward` — the guarded sibling computation, whose comment
documents that the reward becomes 0 after 64 halvings — returns 0 at the
same height. -/
theorem claim_C4 :
    verifyCoinbaseTransaction hm0 blockC4 13440 emptyUtxos = .panic ∧
    calculateBlockReward chainC4 = 0 := by
  constructor
  · decide
  · unfold calculateBlockReward Blockchain.blockHeight chainC4
    rw [List.length_replicate]
    norm_num [HALVING_INTERVAL]

/-- Fixture for C5: an output sitting in the UTXO set. -/
def outC5 : TransactionOutput := { value := 7, unique_id := 42, pubkey := 3 }

/-- Fixture for C5: a blockchain whose UTXO at hash 1 carries a set
(reserved) mempool mark. -/
def chainC5 : Blockchain :=
  { utxos := fun k => if k = 1 then some (true, outC5) else none
    target := 5, blocks := [], mempool := [(0, { inputs := [], outputs := [] })] }

/-- C5 counterexample: the claim says the reservation mark is not persisted
by the save/load round trip (every mark in the loaded state is unmarked).
The `utxos` field has no serde skip attribute, so the round trip preserves
the mark: the loaded state still holds `(true, outC5)` at hash 1. -/
theorem claim_C5_counterexample :
    (saveLoad chainC5).utxos 1 = some (true, outC5) ∧
    chainC5.utxos 1 = some (true, outC5) ∧
    ((saveLoad chainC5).utxos 1 == some (false, outC5)) = false := by
  exact ⟨rfl, rfl, by decide⟩

/-- C5 (amended): the save/load round trip of a `Blockchain` preserves
`blocks`, `target` and the whole `utxos` index — reservation marks
included — exactly, and resets `mempool` to empty (the only field with
`#[serde(default, skip_serializing)]`). -/
theorem claim_C5_theorem :
    ∀ st : Blockchain,
      (saveLoad st).blocks = st.blocks ∧
      (saveLoad st).target = st.target ∧
      (saveLoad st).utxos = st.utxos ∧
      (saveLoad st).mempool = [] :=
  fun _ => ⟨rfl, rfl, rfl, rfl⟩

/-- Fixture for C6: an arbitrary genesis block already on the chain. -/
def genesisC6 : Block :=
  { header :=
      { timestamp := 0, nonce := 0, prev_block_hash := 0, merkle_root := 0, target := 0 }
    transactions :=
      [{ inputs := [], outputs := [{ value := 0, unique_id := 9, pubkey := 0 }] }] }

/-- Fixture for C6: a chain of height 1. -/
def chainC6 : Blockchain :=
  { utxos := emptyUtxos, target := MIN_TARGET, blocks := [genesisC6], mempool := [] }

/-- Fixture for C6: a non-genesis block with an empty transaction list whose
previous-hash check (`hm0.hashBlock genesisC6 = 0`) and proof-of-work check
(`hm0.hashHeader _ = 0 ≤ target`) both pass. -/
def emptyBlockC6 : Block :=
  { header :=
      { timestamp := 1, nonce := 0, prev_block_hash := 0, merkle_root := 0, target := 0 }
    transactions := [] }

/-- C6: the claim says `add_block` rejects a non-genesis empty block by
returning an error instead of invoking Merkle-root calculation on an empty
list or crashing.  In the source the Merkle computation runs before
`verify_transactions`' explicit empty-block rejection, and
`MerkleRoot::calculate` indexes `layer[0]` on an empty layer — an
out-of-bounds abort.  So `add_block` panics on this input, while the
empty-block rejection that the claim describes (`verify_transactions`)
is unreachable for it. -/
theorem claim_C6 :
    addBlock hm0 chainC6 emptyBlockC6 = .panic ∧
    verifyTransactions hm0 emptyBlockC6 1 chainC6.utxos = .err .invalidTransaction := by
  exact ⟨rfl, by decide⟩

/-- Updating the coinbase value does not change the number of transactions
in the block. -/
theorem updateCoinbaseValue_length (b : Block) (v : Nat) :
    (updateCoinbaseValue b v).transactions.length = b.transactions.length := by
  rcases h : b.transactions with _ | ⟨tx, rest⟩ <;>
    simp [updateCoinbaseValue, h]

/-- Projection used to state facts about a produced template. -/
def templateLength : RRes Block → Option Nat
  | .ok b => some b.transactions.length
  | _ => none

/-- Fixture for C3: a mempool holding exactly `BLOCK_TRANSACTION_CAP`
entries (inputless, outputless transactions, each a trivially valid
miner-fee source). -/
def chainC3 : Blockchain :=
  { utxos := emptyUtxos, target := 0, blocks := [],
    mempool := List.replicate 20 (0, { inputs := [], outputs := [] }) }

/-- C3 counterexample: with `BLOCK_TRANSACTION_CAP` mempool entries the
handler takes all 20 of them and then prepends the coinbase, so the
template holds 21 transactions in total — more than the claimed cap of 20
counting the coinbase. -/
theorem claim_C3_counterexample :
    templateLength (fetchTemplate hm0 0 0 0 chainC3) = some 21 ∧
    BLOCK_TRANSACTION_CAP < 21 := by
  exact ⟨by decide, by decide⟩

/-- C3 (amended): every template the `FetchTemplate` handler produces
contains at most `BLOCK_TRANSACTION_CAP + 1` transactions in total: the
coinbase plus at most `BLOCK_TRANSACTION_CAP` mempool transactions. -/
theorem claim_C3_theorem :
    ∀ (hm : HashModel) (now : Int) (freshId pubkey : Nat) (st : Blockchain) (b : Block),
      fetchTemplate hm now freshId pubkey st = .ok b →
      b.transactions.length ≤ BLOCK_TRANSACTION_CAP + 1 := by
  intro hm now freshId pubkey st b h
  simp only [fetchTemplate] at h
  split at h
  · exact absurd h (by simp)
  · split at h
    · exact absurd h (by simp)
    · exact absurd h (by simp)
    · split at h
      · exact absurd h (by simp)
      · injection h with h'
        subst h'
        simp only [updateCoinbaseValue_length, List.length_cons, List.length_map,
          List.length_take, BLOCK_TRANSACTION_CAP]
        omega

/-- C3 witness: the amended bound applied to the template built on the
fresh blockchain (coinbase-only template, one transaction). -/
theorem claim_C3_witness :
    (fetchTemplate hm0 0 0 0 Blockchain.new = .ok
      { header :=
          { timestamp := 0, nonce := 0, prev_block_hash := 0, merkle_root := 0,
            target := MIN_TARGET }
        transactions :=
          [{ inputs := [],
             outputs := [{ value := 5000000000, unique_id := 0, pubkey := 0 }] }] }) ∧
    ({ header :=
          { timestamp := 0, nonce := 0, prev_block_hash := 0, merkle_root := 0,
            target := MIN_TARGET }
       transactions :=
          [{ inputs := [],
             outputs := [{ value := 5000000000, unique_id := 0, pubkey := 0 }] }] } :
        Block).transactions.length ≤ BLOCK_TRANSACTION_CAP + 1 := by
  constructor
  · decide
  · exact claim_C3_theorem hm0 0 0 0 Blockchain.new _ (by decide)

/-- The shared acceptance tail of `add_block` never returns an error: after
the checks have passed it only mutates state (or aborts inside
`try_adjust_target`). -/
theorem acceptBlock_ne_err (hm : HashModel) (st : Blockchain) (b : Block)
    (e : BtcError) (st' : Blockchain) : acceptBlock hm st b ≠ .err e st' := by
  simp only [acceptBlock]
  split <;> simp

/-- C7: whenever `add_block` returns an error, the blockchain is exactly the
state it had before the call: every `return Err` site in `add_block` (and in
the pure helpers `verify_transactions` / `verify_coinbase_transaction` /
`calculate_miner_fees` it calls) precedes the mempool eviction, the block
append and the target adjustment, so a rejection mutates nothing. -/
theorem claim_C7 :
    ∀ (hm : HashModel) (st : Blockchain) (b : Block) (e : BtcError) (st' : Blockchain),
      addBlock hm st b = .err e st' → st' = st := by
  intro hm st b e st' h
  unfold addBlock at h
  split at h
  · split at h
    · exact (StepResult.err.injEq _ _ _ _ ▸ h).2.symm ▸ rfl
    · exact absurd h (acceptBlock_ne_err hm _ b e st')
  · split at h
    · injection h with h1 h2; exact h2.symm
    · split at h
      · injection h with h1 h2; exact h2.symm
      · split at h
        · exact absurd h (by simp)
        · split at h
          · injection h with h1 h2; exact h2.symm
          · split at h
            · injection h with h1 h2; exact h2.symm
            · split at h
              · injection h with h1 h2; exact h2.symm
              · exact absurd h (by simp)
              · exact absurd h (acceptBlock_ne_err hm _ b e st')

/-- Fixture for C7: a would-be genesis block whose previous hash is not the
zero hash, so `add_block` on a fresh blockchain rejects it. -/
def badGenesisC7 : Block :=
  { header :=
      { timestamp := 0, nonce := 0, prev_block_hash := 5, merkle_root := 0, target := 0 }
    transactions := [] }

/-- The state carried by the error that `add_block` returns on the C7
fixture. -/
def errStateC7 : Blockchain :=
  match addBlock hm0 Blockchain.new badGenesisC7 with
  | .err _ st => st
  | .ok st => st
  | .panic => Blockchain.new

/-- C7 witness: the atomicity theorem applied at a concrete rejected block,
whose error state is the untouched fresh blockchain. -/
theorem claim_C7_witness : errStateC7 = Blockchain.new :=
  claim_C7 hm0 Blockchain.new badGenesisC7 .invalidBlock errStateC7 rfl

/-- A single UTXO-map mutation performed by `rebuild_utxos`. -/
inductive UtxoOp where
  | removeOp (k : Nat)
  | insertOp (k : Nat) (v : Bool × TransactionOutput)

/-- The key an operation touches. -/
def UtxoOp.key : UtxoOp → Nat
  | .removeOp k => k
  | .insertOp k _ => k

/-- The value an operation leaves at its key. -/
def UtxoOp.result : UtxoOp → Option (Bool × TransactionOutput)
  | .removeOp _ => none
  | .insertOp _ v => some v

/-- Applying one operation to the map. -/
def applyOp (u : UtxoMap) : UtxoOp → UtxoMap
  | .removeOp k => mapRemove k u
  | .insertOp k v => mapInsert k v u

/-- Applying a sequence of operations left to right. -/
def applyOps (ops : List UtxoOp) (u : UtxoMap) : UtxoMap :=
  ops.foldl applyOp u

/-- The last operation of a sequence that touches a given key, if any. -/
def lastTouch (ops : List UtxoOp) (k : Nat) : Option UtxoOp :=
  ops.foldl (fun acc op => if op.key = k then some op else acc) none

theorem applyOps_append (ops1 ops2 : List UtxoOp) (u : UtxoMap) :
    applyOps (ops1 ++ ops2) u = applyOps ops2 (applyOps ops1 u) := by
  simp [applyOps, List.foldl_append]

theorem lastTouch_append_singleton (ops : List UtxoOp) (op : UtxoOp) (k : Nat) :
    lastTouch (ops ++ [op]) k = if op.key = k then some op else lastTouch ops k := by
  simp [lastTouch, List.foldl_append]

/-- Pointwise value of an applied operation sequence: the last operation on
the key decides, otherwise the map is untouched there. -/
theorem applyOps_apply (ops : List UtxoOp) (u : UtxoMap) (k : Nat) :
    applyOps ops u k =
      match lastTouch ops k with
      | some op => op.result
      | none => u k := by
  induction ops using List.reverseRecOn generalizing u with
  | nil => simp [applyOps, lastTouch]
  | append_singleton ops op ih =>
    rw [applyOps_append, lastTouch_append_singleton]
    by_cases hk : op.key = k
    · rw [if_pos hk]
      cases op with
      | removeOp k0 =>
        simp only [UtxoOp.key] at hk
        subst hk
        show mapRemove k0 (applyOps ops u) k0 = UtxoOp.result (.removeOp k0)
        simp [mapRemove, UtxoOp.result]
      | insertOp k0 v =>
        simp only [UtxoOp.key] at hk
        subst hk
        show mapInsert k0 v (applyOps ops u) k0 = UtxoOp.result (.insertOp k0 v)
        simp [mapInsert, UtxoOp.result]
    · rw [if_neg hk]
      have happ : applyOps [op] (applyOps ops u) k = applyOps ops u k := by
        cases op with
        | removeOp k0 =>
          simp only [UtxoOp.key] at hk
          show mapRemove k0 (applyOps ops u) k = applyOps ops u k
          simp only [mapRemove]
          rw [if_neg (fun h => hk h.symm)]
        | insertOp k0 v =>
          simp only [UtxoOp.key] at hk
          show mapInsert k0 v (applyOps ops u) k = applyOps ops u k
          simp only [mapInsert]
          rw [if_neg (fun h => hk h.symm)]
      rw [happ, ih]

/-- A last touch is an element of the sequence. -/
theorem lastTouch_mem (ops : List UtxoOp) (k : Nat) (op : UtxoOp)
    (h : lastTouch ops k = some op) : op ∈ ops := by
  induction ops using List.reverseRecOn with
  | nil => simp [lastTouch] at h
  | append_singleton ops op0 ih =>
    rw [lastTouch_append_singleton] at h
    by_cases hk : op0.key = k
    · rw [if_pos hk] at h
      injection h with h
      subst h
      exact List.mem_append_right _ (List.mem_singleton.mpr rfl)
    · rw [if_neg hk] at h
      exact List.mem_append_left _ (ih h)

/-- The operations `rebuild_utxos` performs for one transaction: remove
every input's referenced UTXO, then insert every output unmarked. -/
def txOps (hm : HashModel) (tx : Transaction) : List UtxoOp :=
  tx.inputs.map (fun i => .removeOp i.prev_transaction_output_hash) ++
    tx.outputs.map (fun o => .insertOp (hm.hashOutput o) (false, o))

/-- The operations `rebuild_utxos` performs for the whole chain. -/
def chainOps (hm : HashModel) (bs : List Block) : List UtxoOp :=
  bs.flatMap (fun b => b.transactions.flatMap (txOps hm))

theorem applyOps_flatMap {β : Type} (f : β → List UtxoOp) (l : List β) (u : UtxoMap) :
    applyOps (l.flatMap f) u = l.foldl (fun u x => applyOps (f x) u) u := by
  induction l generalizing u with
  | nil => rfl
  | cons x xs ih =>
    rw [List.flatMap_cons, applyOps_append, ih]
    rfl

/-- Reading `rebuild_utxos`' nested loops as the operation sequence
`chainOps`. -/
theorem rebuildUtxos_utxos_eq (hm : HashModel) (st : Blockchain) :
    (rebuildUtxos hm st).utxos = applyOps (chainOps hm st.blocks) st.utxos := by
  have htx : ∀ (u : UtxoMap) (tx : Transaction),
      tx.outputs.foldl (fun u o => mapInsert (hm.hashOutput o) (false, o) u)
        (tx.inputs.foldl (fun u i => mapRemove i.prev_transaction_output_hash u) u) =
      applyOps (txOps hm tx) u := by
    intro u tx
    rw [txOps, applyOps_append]
    rw [applyOps, applyOps, List.foldl_map, List.foldl_map]
    rfl
  have hblock : ∀ (u : UtxoMap) (b : Block),
      b.transactions.foldl
        (fun u tx =>
          tx.outputs.foldl (fun u o => mapInsert (hm.hashOutput o) (false, o) u)
            (tx.inputs.foldl (fun u i => mapRemove i.prev_transaction_output_hash u) u))
        u =
      applyOps (b.transactions.flatMap (txOps hm)) u := by
    intro u b
    rw [applyOps_flatMap]
    congr 1
    funext u tx
    exact htx u tx
  show st.blocks.foldl _ st.utxos = _
  rw [chainOps, applyOps_flatMap]
  congr 1
  funext u b
  exact hblock u b

/-- Every insertion in `chainOps` carries a cleared mark. -/
theorem chainOps_insert_unmarked (hm : HashModel) (bs : List Block) (op : UtxoOp)
    (hmem : op ∈ chainOps hm bs) (k : Nat) (v : Bool × TransactionOutput)
    (heq : op = .insertOp k v) : v.1 = false := by
  subst heq
  rw [chainOps] at hmem
  rcases List.mem_flatMap.mp hmem with ⟨b, _, hb⟩
  rcases List.mem_flatMap.mp hb with ⟨tx, _, htx⟩
  rw [txOps] at htx
  rcases List.mem_append.mp htx with hin | hout
  · rcases List.mem_map.mp hin with ⟨i, _, h⟩
    exact absurd h (by simp)
  · rcases List.mem_map.mp hout with ⟨o, _, h⟩
    injection h with h1 h2
    rw [← h2]

/-- C10: `rebuild_utxos` is idempotent — replaying the (unchanged) chain a
second time applies the identical operation sequence, and for every key the
last operation on it (or the untouched original value) decides the result —
and every UTXO entry it inserts or overwrites ends up unmarked. -/
theorem claim_C10 :
    ∀ (hm : HashModel) (st : Blockchain),
      (rebuildUtxos hm (rebuildUtxos hm st)).utxos = (rebuildUtxos hm st).utxos ∧
      ∀ k, (rebuildUtxos hm st).utxos k = st.utxos k ∨
        (rebuildUtxos hm st).utxos k = none ∨
        ∃ o, (rebuildUtxos hm st).utxos k = some (false, o) := by
  intro hm st
  have hblocks : (rebuildUtxos hm st).blocks = st.blocks := rfl
  constructor
  · funext k
    rw [rebuildUtxos_utxos_eq, hblocks, rebuildUtxos_utxos_eq]
    rw [applyOps_apply, applyOps_apply]
    rcases hlt : lastTouch (chainOps hm st.blocks) k with _ | op <;> simp [hlt]
  · intro k
    rw [rebuildUtxos_utxos_eq, applyOps_apply]
    rcases hlt : lastTouch (chainOps hm st.blocks) k with _ | op
    · simp
    · cases op with
      | removeOp k0 => exact Or.inr (Or.inl rfl)
      | insertOp k0 v =>
        refine Or.inr (Or.inr ⟨v.2, ?_⟩)
        have hv : v.1 = false :=
          chainOps_insert_unmarked hm st.blocks _
            (lastTouch_mem _ _ _ hlt) k0 v rfl
        show UtxoOp.result (.insertOp k0 v) = some (false, v.2)
        simp [UtxoOp.result]
        rw [← hv]

/-- Pointwise value of unmarking a list of hashes: marks are cleared exactly
at the listed keys, everything else is untouched. -/
theorem unmarkAllHashes_apply (ks : List Nat) :
    ∀ (u : UtxoMap) (k : Nat),
      unmarkAllHashes ks u k =
        if k ∈ ks then (u k).map (fun p => (false, p.2)) else u k := by
  induction ks with
  | nil => intro u k; simp [unmarkAllHashes]
  | cons k0 ks ih =>
    intro u k
    have hstep : unmarkAllHashes (k0 :: ks) u = unmarkAllHashes ks (unmarkEntry k0 u) := rfl
    rw [hstep, ih]
    have hu : unmarkEntry k0 u k =
        if k = k0 then (u k).map (fun p => (false, p.2)) else u k := rfl
    by_cases hk0 : k = k0
    · by_cases hks : k ∈ ks
      · rw [if_pos hks, if_pos (by simp [hk0]), hu, if_pos hk0]
        cases u k <;> rfl
      · rw [if_neg hks, if_pos (by simp [hk0]), hu, if_pos hk0]
    · by_cases hks : k ∈ ks
      · rw [if_pos hks, if_pos (by simp [hks]), hu, if_neg hk0]
      · rw [if_neg hks, if_neg (by simp [hk0, hks]), hu, if_neg hk0]

/-- Relation between UTXO maps: the second only differs from the first by
cleared reservation marks (all stored outputs agree, and any changed entry
is now unmarked). -/
def OnlyUnmarks (u0 u1 : UtxoMap) : Prop :=
  ∀ k, (u1 k).map Prod.snd = (u0 k).map Prod.snd ∧
    (u1 k ≠ u0 k → ∃ o, u1 k = some (false, o))

theorem onlyUnmarks_refl (u : UtxoMap) : OnlyUnmarks u u :=
  fun _ => ⟨rfl, fun h => absurd rfl h⟩

theorem onlyUnmarks_trans {a b c : UtxoMap}
    (h1 : OnlyUnmarks a b) (h2 : OnlyUnmarks b c) : OnlyUnmarks a c := by
  intro k
  refine ⟨(h2 k).1.trans (h1 k).1, fun hne => ?_⟩
  by_cases hcb : c k = b k
  · rw [hcb] at hne ⊢
    exact (h1 k).2 hne
  · exact (h2 k).2 hcb

theorem onlyUnmarks_unmarkAllHashes (ks : List Nat) (u : UtxoMap) :
    OnlyUnmarks u (unmarkAllHashes ks u) := by
  intro k
  rw [unmarkAllHashes_apply]
  by_cases hk : k ∈ ks
  · rw [if_pos hk]
    constructor
    · cases u k <;> rfl
    · intro hne
      rcases hup : u k with _ | p
      · rw [hup] at hne
        exact absurd rfl hne
      · exact ⟨p.2, rfl⟩
  · rw [if_neg hk]
    exact ⟨rfl, fun h => absurd rfl h⟩

theorem onlyUnmarks_unmarkEntry (k0 : Nat) (u : UtxoMap) :
    OnlyUnmarks u (unmarkEntry k0 u) := by
  have hsingle : unmarkEntry k0 u = unmarkAllHashes [k0] u := rfl
  rw [hsingle]
  exact onlyUnmarks_unmarkAllHashes [k0] u

/-- The conflict-resolution loop returns a subsequence of the mempool (it
only removes entries) and only clears reservation marks in the UTXO set. -/
theorem resolveConflicts_spec (hm : HashModel) (inputs : List TransactionInput) :
    ∀ (u : UtxoMap) (pool : List (Int × Transaction)),
      (resolveConflicts hm inputs u pool).2.Sublist pool ∧
      OnlyUnmarks u (resolveConflicts hm inputs u pool).1 := by
  induction inputs with
  | nil => exact fun u pool => ⟨List.Sublist.refl pool, onlyUnmarks_refl u⟩
  | cons i rest ih =>
    intro u pool
    rw [resolveConflicts]
    split
    · split
      · exact ⟨(ih _ _).1.trans (List.eraseIdx_sublist pool _),
          onlyUnmarks_trans (onlyUnmarks_unmarkAllHashes _ u) (ih _ _).2⟩
      · exact ⟨(ih _ pool).1,
          onlyUnmarks_trans (onlyUnmarks_unmarkEntry _ u) (ih _ pool).2⟩
    · exact ih u pool

/-- C2 (amended): when `add_to_mempool` returns an error, `blocks` and
`target` are always unchanged, and the two validation errors raised before
the conflict-resolution step leave the whole state unchanged; but the
inputs-below-outputs rejection runs after conflict resolution, so on an
error the mempool can have lost entries (it is a subsequence of the
original) and reservation marks can have been cleared — the stored outputs
themselves are never altered, and every changed UTXO entry is merely
unmarked. -/
theorem claim_C2 :
    ∀ (hm : HashModel) (now : Int) (st : Blockchain) (tx : Transaction)
      (e : BtcError) (st' : Blockchain),
      addToMempool hm now st tx = .err e st' →
      st'.blocks = st.blocks ∧ st'.target = st.target ∧
      st'.mempool.Sublist st.mempool ∧
      (∀ k, (st'.utxos k).map Prod.snd = (st.utxos k).map Prod.snd) ∧
      (∀ k, st'.utxos k ≠ st.utxos k → ∃ o, st'.utxos k = some (false, o)) := by
  intro hm now st tx e st' h
  simp only [addToMempool] at h
  split at h
  · injection h with h1 h2
    subst h2
    exact ⟨rfl, rfl, List.Sublist.refl _, fun _ => rfl, fun _ hk => absurd rfl hk⟩
  · split at h
    · exact absurd h (by simp)
    · split at h
      · injection h with h1 h2
        subst h2
        exact ⟨rfl, rfl,
          (resolveConflicts_spec hm tx.inputs st.utxos st.mempool).1,
          fun k => ((resolveConflicts_spec hm tx.inputs st.utxos st.mempool).2 k).1,
          fun k => ((resolveConflicts_spec hm tx.inputs st.utxos st.mempool).2 k).2⟩
      · exact absurd h (by simp)

/-- Fixture for C2: the UTXO referenced by the rejected transaction, marked
as reserved. -/
def outC2 : TransactionOutput := { value := 5, unique_id := 10, pubkey := 0 }

/-- Fixture for C2: a blockchain whose only UTXO (hash 1) is marked while
the mempool is empty, so the conflict-resolution fallback fires. -/
def chainC2 : Blockchain :=
  { utxos := fun k => if k = 1 then some (true, outC2) else none
    target := 0, blocks := [], mempool := [] }

/-- Fixture for C2: a transaction spending the marked 5-satoshi UTXO while
emitting 6 satoshis, so the balance check rejects it — after the
conflict-resolution step has already unmarked the UTXO. -/
def txC2 : Transaction :=
  { inputs := [{ prev_transaction_output_hash := 1, signature := 0 }]
    outputs := [{ value := 6, unique_id := 11, pubkey := 0 }] }

/-- Kind of error a step returned, if any. -/
def stepErrKind : StepResult → Option BtcError
  | .err e _ => some e
  | _ => none

/-- UTXO entry at a key in the state carried by a step's error, if any. -/
def stepErrUtxoAt (r : StepResult) (k : Nat) :
    Option (Option (Bool × TransactionOutput)) :=
  match r with
  | .err _ st => some (st.utxos k)
  | _ => none

/-- C2 counterexample: the claim says an erroring `add_to_mempool` changes
no field — in particular that an inputs-below-outputs rejection leaves the
state exactly as before.  On `chainC2`/`txC2` the call errors with
`InvalidTransaction`, yet the referenced UTXO's reservation mark has been
cleared (`true` before the call, `false` in the post-error state). -/
theorem claim_C2_counterexample :
    stepErrKind (addToMempool hm0 0 chainC2 txC2) = some .invalidTransaction ∧
    stepErrUtxoAt (addToMempool hm0 0 chainC2 txC2) 1 = some (some (false, outC2)) ∧
    chainC2.utxos 1 = some (true, outC2) := by
  exact ⟨by decide, by decide, rfl⟩

/-- The state carried by the error that `add_to_mempool` returns on the C2
fixture. -/
def errStateC2 : Blockchain :=
  match addToMempool hm0 0 chainC2 txC2 with
  | .err _ st => st
  | .ok st => st
  | .panic => Blockchain.new

/-- C2 witness: the amended atomicity statement applied at the concrete
rejected transaction. -/
theorem claim_C2_witness :
    errStateC2.blocks = chainC2.blocks ∧ errStateC2.target = chainC2.target ∧
    errStateC2.mempool.Sublist chainC2.mempool := by
  obtain ⟨h1, h2, h3, -, -⟩ :=
    claim_C2 hm0 0 chainC2 txC2 .invalidTransaction errStateC2 rfl
  exact ⟨h1, h2, h3⟩

/-- C9: `cleanup_mempool` keeps exactly the entries whose age is at most
`MAX_MEMPOOL_TRANSACTION_AGE` seconds at the time of the call (evicting
precisely the strictly older ones, in order), and clears the reservation
mark of every UTXO referenced by an evicted entry's inputs while leaving
every other UTXO entry untouched. -/
theorem claim_C9 :
    ∀ (now : Int) (st : Blockchain),
      (cleanupMempool now st).mempool =
        st.mempool.filter
          (fun e => decide (now - e.1 ≤ (MAX_MEMPOOL_TRANSACTION_AGE : Int))) ∧
      ∀ k,
        ((∃ p, p ∈ st.mempool ∧ (MAX_MEMPOOL_TRANSACTION_AGE : Int) < now - p.1 ∧
            k ∈ p.2.inputs.map (fun i => i.prev_transaction_output_hash)) →
          (cleanupMempool now st).utxos k =
            (st.utxos k).map (fun q => (false, q.2))) ∧
        (¬ (∃ p, p ∈ st.mempool ∧ (MAX_MEMPOOL_TRANSACTION_AGE : Int) < now - p.1 ∧
            k ∈ p.2.inputs.map (fun i => i.prev_transaction_output_hash)) →
          (cleanupMempool now st).utxos k = st.utxos k) := by
  intro now st
  have hmem : ∀ k,
      (k ∈ (st.mempool.filter (isExpired now)).flatMap
          (fun e => e.2.inputs.map (fun i => i.prev_transaction_output_hash))) ↔
      (∃ p, p ∈ st.mempool ∧ (MAX_MEMPOOL_TRANSACTION_AGE : Int) < now - p.1 ∧
        k ∈ p.2.inputs.map (fun i => i.prev_transaction_output_hash)) := by
    intro k
    simp only [List.mem_flatMap, List.mem_filter, isExpired, decide_eq_true_eq]
    constructor
    · rintro ⟨e, ⟨he, hexp⟩, hk⟩
      exact ⟨e, he, hexp, hk⟩
    · rintro ⟨e, he, hexp, hk⟩
      exact ⟨e, ⟨he, hexp⟩, hk⟩
  refine ⟨?_, ?_⟩
  · show st.mempool.filter (fun e => ! isExpired now e) = _
    apply List.filter_congr
    intro e _
    by_cases hx : (MAX_MEMPOOL_TRANSACTION_AGE : Int) < now - e.1
    · simp [isExpired, hx, not_le.mpr hx]
    · simp [isExpired, hx, not_lt.mp hx]
  · intro k
    constructor
    · intro hex
      show unmarkAllHashes _ st.utxos k = _
      rw [unmarkAllHashes_apply, if_pos ((hmem k).mpr hex)]
    · intro hnex
      show unmarkAllHashes _ st.utxos k = _
      rw [unmarkAllHashes_apply, if_neg (fun hk => hnex ((hmem k).mp hk))]

/-- Fixture for C9: the UTXO reserved by the transaction to be evicted. -/
def outC9 : TransactionOutput := { value := 4, unique_id := 21, pubkey := 2 }

/-- Fixture for C9: a transaction admitted at time 0 that reserves UTXO 1. -/
def txC9 : Transaction :=
  { inputs := [{ prev_transaction_output_hash := 1, signature := 0 }], outputs := [] }

/-- Fixture for C9: a blockchain with the reserved UTXO and the mempool
entry admitted at time 0. -/
def chainC9 : Blockchain :=
  { utxos := fun k => if k = 1 then some (true, outC9) else none
    target := 0, blocks := [], mempool := [(0, txC9)] }

/-- C9 witness: the spec's eviction scenario — admit at t₀ = 0, clean up at
t₀ + 601 s: the entry is gone and its input UTXO is unmarked. -/
theorem claim_C9_witness :
    (cleanupMempool 601 chainC9).mempool = [] ∧
    (cleanupMempool 601 chainC9).utxos 1 = some (false, outC9) ∧
    (cleanupMempool 601 chainC9).utxos 2 = chainC9.utxos 2 := by
  have h := claim_C9 601 chainC9
  refine ⟨?_, ?_, ?_⟩
  · rw [h.1]
    decide
  · have h2 := (h.2 1).1 ⟨(0, txC9), by decide, by decide, by decide⟩
    rw [h2]
    rfl
  · refine (h.2 2).2 ?_
    rintro ⟨p, hp, -, hk⟩
    have hp' : p = (0, txC9) := by
      simpa [chainC9] using hp
    subst hp'
    simp [txC9] at hk

/-- Projection of a step result to the blockchain it carries (the fresh
blockchain as an unused fallback for panics). -/
def stepState : StepResult → Blockchain
  | .ok st => st
  | .err _ st => st
  | .panic => Blockchain.new

/-- Projection: the miner fees (inputs' UTXO values minus output values) of
the transactions after the coinbase of a produced template. -/
def templateFeesAfterCoinbase (r : RRes Block) (u : UtxoMap) : Option (List Nat) :=
  match r with
  | .ok b => some ((b.transactions.drop 1).map (minerFeeKey u))
  | _ => none

/-- Fixture for C1: a 10-satoshi UTXO at hash 1. -/
def outA : TransactionOutput := { value := 10, unique_id := 1, pubkey := 0 }

/-- Fixture for C1: a 30-satoshi UTXO at hash 2. -/
def outB : TransactionOutput := { value := 30, unique_id := 2, pubkey := 0 }

/-- Fixture for C1: a 20-satoshi UTXO at hash 3. -/
def outC : TransactionOutput := { value := 20, unique_id := 3, pubkey := 0 }

/-- Fixture for C1: three unreserved UTXOs worth 10, 30 and 20 satoshis. -/
def chainC1 : Blockchain :=
  { utxos := fun k =>
      if k = 1 then some (false, outA)
      else if k = 2 then some (false, outB)
      else if k = 3 then some (false, outC)
      else none
    target := MIN_TARGET, blocks := [], mempool := [] }

/-- Fixture for C1: outputless transaction spending UTXO 1 — miner fee 10. -/
def txA : Transaction :=
  { inputs := [{ prev_transaction_output_hash := 1, signature := 0 }], outputs := [] }

/-- Fixture for C1: outputless transaction spending UTXO 2 — miner fee 30. -/
def txB : Transaction :=
  { inputs := [{ prev_transaction_output_hash := 2, signature := 0 }], outputs := [] }

/-- Fixture for C1: outputless transaction spending UTXO 3 — miner fee 20. -/
def txC : Transaction :=
  { inputs := [{ prev_transaction_output_hash := 3, signature := 0 }], outputs := [] }

/-- Fixture for C1: the blockchain after admitting the fee-10, fee-30 and
fee-20 transactions, in that order. -/
def chainC1after : Blockchain :=
  stepState (addToMempool hm0 2
    (stepState (addToMempool hm0 1
      (stepState (addToMempool hm0 0 chainC1 txA)) txB)) txC)

/-- C1 counterexample: the claim says the mempool is sorted in descending
fee order and the template transactions after the coinbase appear as
`[30, 20, 10]`.  `sort_by_key` sorts ascending, so after admitting fees
10, 30, 20 the template transactions after the coinbase carry the fees
`[10, 20, 30]` — not `[30, 20, 10]`. -/
theorem claim_C1_counterexample :
    templateFeesAfterCoinbase (fetchTemplate hm0 10 99 7 chainC1after)
      chainC1after.utxos = some [10, 20, 30] ∧
    (templateFeesAfterCoinbase (fetchTemplate hm0 10 99 7 chainC1after)
      chainC1after.utxos == some [30, 20, 10]) = false := by
  exact ⟨by decide, by decide⟩

/-- C1 (amended): after every successful `add_to_mempool` the mempool is
sorted in ascending (non-decreasing) order of miner fee — `sort_by_key` is
a stable sort, so equal fees keep insertion order — and consequently, after
admitting three transactions with miner fees 10, 30 and 20, the
transactions of a `FetchTemplate` response appear after the coinbase in the
order `[10, 20, 30]`. -/
theorem claim_C1 :
    (∀ (hm : HashModel) (now : Int) (st : Blockchain) (tx : Transaction)
        (st' : Blockchain),
      addToMempool hm now st tx = .ok st' →
      st'.mempool.Sorted
        (fun a b => minerFeeKey st'.utxos a.2 ≤ minerFeeKey st'.utxos b.2)) ∧
    templateFeesAfterCoinbase (fetchTemplate hm0 10 99 7 chainC1after)
      chainC1after.utxos = some [10, 20, 30] := by
  constructor
  · intro hm now st tx st' h
    simp only [addToMempool] at h
    split at h
    · exact absurd h (by simp)
    · split at h
      · exact absurd h (by simp)
      · split at h
        · exact absurd h (by simp)
        · injection h with h'
          subst h'
          haveI htot : IsTotal (Int × Transaction)
              (fun a b =>
                minerFeeKey (markAllInputs tx.inputs
                  (resolveConflicts hm tx.inputs st.utxos st.mempool).1) a.2 ≤
                minerFeeKey (markAllInputs tx.inputs
                  (resolveConflicts hm tx.inputs st.utxos st.mempool).1) b.2) :=
            ⟨fun a b => le_total _ _⟩
          haveI htrans : IsTrans (Int × Transaction)
              (fun a b =>
                minerFeeKey (markAllInputs tx.inputs
                  (resolveConflicts hm tx.inputs st.utxos st.mempool).1) a.2 ≤
                minerFeeKey (markAllInputs tx.inputs
                  (resolveConflicts hm tx.inputs st.utxos st.mempool).1) b.2) :=
            ⟨fun a b c hab hbc => le_trans hab hbc⟩
          exact List.sorted_insertionSort _ _
  · decide

/-- C1 witness: the sortedness statement applied after one concrete
successful admission. -/
theorem claim_C1_witness :
    (stepState (addToMempool hm0 0 chainC1 txA)).mempool.Sorted
      (fun a b =>
        minerFeeKey (stepState (addToMempool hm0 0 chainC1 txA)).utxos a.2 ≤
        minerFeeKey (stepState (addToMempool hm0 0 chainC1 txA)).utxos b.2) :=
  claim_C1.1 hm0 0 chainC1 txA (stepState (addToMempool hm0 0 chainC1 txA)) rfl

/-- C8: `try_adjust_target` leaves the target unchanged unless the block
count is at least `DIFFICULTY_UPDATE_INTERVAL` and divisible by it; when it
fires (with the non-negative elapsed time every chain built through
`add_block`'s strictly-increasing timestamps has), the new target is the
exact floor `target * elapsed / (IDEAL_BLOCK_TIME *
DIFFICULTY_UPDATE_INTERVAL)` clamped to `[target / 4, target * 4]` and then
capped at `MIN_TARGET`. -/
theorem claim_C8 :
    (∀ st : Blockchain,
      ¬ (DIFFICULTY_UPDATE_INTERVAL ≤ st.blocks.length ∧
          st.blocks.length % DIFFICULTY_UPDATE_INTERVAL = 0) →
      tryAdjustTarget st = some st) ∧
    (∀ (st : Blockchain) (firstBlock lastBlock : Block),
      DIFFICULTY_UPDATE_INTERVAL ≤ st.blocks.length →
      st.blocks.length % DIFFICULTY_UPDATE_INTERVAL = 0 →
      st.blocks.get? (st.blocks.length - DIFFICULTY_UPDATE_INTERVAL) = some firstBlock →
      st.blocks.getLast? = some lastBlock →
      0 ≤ lastBlock.header.timestamp - firstBlock.header.timestamp →
      tryAdjustTarget st = some { st with target :=
        (min
          (max
            (min
              (st.target *
                  (lastBlock.header.timestamp - firstBlock.header.timestamp).toNat /
                (IDEAL_BLOCK_TIME * DIFFICULTY_UPDATE_INTERVAL))
              (st.target * 4))
            (st.target / 4))
          MIN_TARGET) }) := by
  constructor
  · intro st h
    simp only [tryAdjustTarget]
    split
    · rfl
    · split
      · rfl
      · rename_i h1 h2
        exact absurd ⟨not_lt.mp h1, not_not.mp h2⟩ h
  · intro st firstBlock lastBlock h1 h2 h3 h4 h5
    simp only [tryAdjustTarget]
    rw [if_neg (not_lt.mpr h1), if_neg (fun hc => hc h2)]
    simp only [h3, h4]
    rw [if_neg (fun hc => absurd hc.1 (not_lt.mpr h5))]
    have harith :
        (if st.target *
              (lastBlock.header.timestamp - firstBlock.header.timestamp).toNat /
              (IDEAL_BLOCK_TIME * DIFFICULTY_UPDATE_INTERVAL) <
            st.target / 4 then
          st.target / 4
        else if st.target * 4 <
            st.target *
              (lastBlock.header.timestamp - firstBlock.header.timestamp).toNat /
              (IDEAL_BLOCK_TIME * DIFFICULTY_UPDATE_INTERVAL) then
          st.target * 4
        else
          st.target *
            (lastBlock.header.timestamp - firstBlock.header.timestamp).toNat /
            (IDEAL_BLOCK_TIME * DIFFICULTY_UPDATE_INTERVAL)) =
        max
          (min
            (st.target *
                (lastBlock.header.timestamp - firstBlock.header.timestamp).toNat /
              (IDEAL_BLOCK_TIME * DIFFICULTY_UPDATE_INTERVAL))
            (st.target * 4))
          (st.target / 4) := by
      split
      · omega
      · split <;> omega
    rw [harith]

/-- Fixture for C8: a transactionless block stamped at a given second. -/
def mkBlockC8 (t : Int) : Block :=
  { header :=
      { timestamp := t, nonce := 0, prev_block_hash := 0, merkle_root := 0, target := 0 }
    transactions := [] }

/-- Fixture for C8: 50 blocks spanning 100 seconds (timestamps 0..48 then
100), at the initial target `MIN_TARGET`. -/
def chainC8 : Blockchain :=
  { utxos := emptyUtxos, target := MIN_TARGET,
    blocks := (List.range 49).map (fun i => mkBlockC8 i) ++ [mkBlockC8 100],
    mempool := [] }

/-- C8 witness: the spec's difficulty-increase scenario — 50 blocks spanning
100 s against an ideal of 500 s give the raw ratio 1/5 < 1/4, so the fired
update clamps to `MIN_TARGET / 4` (the cap at `MIN_TARGET` does not bind). -/
theorem claim_C8_witness :
    (tryAdjustTarget chainC8).map (fun st => st.target) = some (MIN_TARGET / 4) := by
  have h := claim_C8.2 chainC8 (mkBlockC8 0) (mkBlockC8 100)
    (by decide) (by decide) (by decide) (by decide) (by decide)
  rw [h]
  decide
